import Mathlib

/-!
Verification of the crypto sentiment-analysis core
(`src/crypto-trading-backend/src/scripts/sentiment_analyzer.py`).

The Python module is shallowly embedded here: scores are exact rationals
(the Python code uses IEEE doubles; all claims are about the exact numeric
policy, so `ℚ` is the faithful idealization), the single irrational
quantity (the standard deviation inside the confidence estimator) lives in
`ℝ`, tweet metadata counts are `Nat`, and the external collaborators
(the Vader polarity scorer, the timestamp parser, the wall clock) are
passed in as explicit function parameters.
-/

set_option autoImplicit false

namespace SentimentAnalyzer

/-! ### Threshold constants (`CryptoSentimentAnalyzer` class attributes) -/

def BUY_THRESHOLD : ℚ := 6/100
def SELL_THRESHOLD : ℚ := 4/100
def HIGH_VOLUME_THRESHOLD : ℕ := 500
def LOW_VOLUME_THRESHOLD : ℕ := 100
def HIGH_VOLUME_MULTIPLIER : ℚ := 15/10
def LOW_VOLUME_MULTIPLIER : ℚ := 5/10

/-! ### Data model -/

/-- One fetched message, as produced by `fetch_twitter_data`: identifier,
raw text, timestamp string, and the three engagement counts (Twitter
counts are non-negative, so they are modelled as `ℕ`). -/
structure Tweet where
  id : String
  text : String
  created_at : String
  retweet_count : ℕ
  like_count : ℕ
  reply_count : ℕ
deriving DecidableEq

/-- A polarity score as returned by the external Vader scorer
(`sia.polarity_scores`). -/
structure Polarity where
  compound : ℚ
  positive : ℚ
  negative : ℚ
  neutral : ℚ
deriving DecidableEq

/-- One entry of the `sentiment_scores` list built inside
`analyze_symbol_sentiment`: the four polarity components together with the
engagement weight of the message. -/
structure SScore where
  compound : ℚ
  positive : ℚ
  negative : ℚ
  neutral : ℚ
  weight : ℚ
deriving DecidableEq

/-! ### `generate_trading_signal` (lines 405-414) -/

def generate_trading_signal (compound_score : ℚ) : String :=
  if compound_score > BUY_THRESHOLD then "BUY"
  else if compound_score < SELL_THRESHOLD then "SELL"
  else "NEUTRAL"

/-! ### `get_volume_multiplier` (lines 394-403) -/

def get_volume_multiplier (tweet_count : ℕ) : ℚ :=
  if tweet_count > HIGH_VOLUME_THRESHOLD then HIGH_VOLUME_MULTIPLIER
  else if tweet_count < LOW_VOLUME_THRESHOLD then LOW_VOLUME_MULTIPLIER
  else 1

/-! ### `calculate_engagement_weight` (lines 274-293) -/

/-- The weighted engagement score `(retweets * 3) + (likes * 1) + (replies * 2)`. -/
def engagement_score (tweet : Tweet) : ℕ :=
  tweet.retweet_count * 3 + tweet.like_count * 1 + tweet.reply_count * 2

def calculate_engagement_weight (tweet : Tweet) : ℚ :=
  if engagement_score tweet = 0 then 1
  else if engagement_score tweet < 10 then 8/10
  else if engagement_score tweet < 50 then 12/10
  else 15/10

/-- Running total of engagement weights (`total_engagement_weight` in
`analyze_symbol_sentiment`, accumulated over the relevant messages). -/
def total_weight (scores : List SScore) : ℚ :=
  (scores.map (fun s => s.weight)).sum

/-! ### The weighted averages of `analyze_symbol_sentiment` (lines 348-352) -/

def weighted_compound (scores : List SScore) : ℚ :=
  (scores.map (fun s => s.compound * s.weight)).sum / total_weight scores

def weighted_positive (scores : List SScore) : ℚ :=
  (scores.map (fun s => s.positive * s.weight)).sum / total_weight scores

def weighted_negative (scores : List SScore) : ℚ :=
  (scores.map (fun s => s.negative * s.weight)).sum / total_weight scores

def weighted_neutral (scores : List SScore) : ℚ :=
  (scores.map (fun s => s.neutral * s.weight)).sum / total_weight scores

/-! ### `preprocess_tweet` (lines 121-138)

The three `re.sub` calls are modelled over `List Char`:
`re.sub(r'http\S+|www\S+|https\S+', '', text)` removes, scanning left to
right, every maximal run of non-whitespace characters that starts at a
literal `http` (which subsumes the redundant `https` alternative) or
`www` followed by at least one further non-whitespace character;
`re.sub(r'@\w+', '', text)` removes every `@` followed by a maximal
non-empty run of word characters; `re.sub(r'\s+', ' ', text).strip()`
replaces maximal whitespace runs by one space and trims; `.lower()`
lower-cases. Whitespace and word characters use the ASCII classes. -/

def isSpc (c : Char) : Bool :=
  c == ' ' || c == '\t' || c == '\n' || c == '\r' || c == '\x0b' || c == '\x0c'

def isWordChar (c : Char) : Bool :=
  c.isAlphanum || c == '_'

/-- Whether position `i` of `l` exists and holds a non-whitespace character. -/
def nonspaceAt (l : List Char) (i : ℕ) : Bool :=
  match l.drop i with
  | [] => false
  | c :: _ => !isSpc c

/-- Whether a match of `http\S+|www\S+|https\S+` starts at the head of `l`. -/
def startsUrl (l : List Char) : Bool :=
  (l.take 4 == ['h', 't', 't', 'p'] && nonspaceAt l 4) ||
  (l.take 3 == ['w', 'w', 'w'] && nonspaceAt l 3)

/-- Whether a match of `@\w+` starts at the head of `l`. -/
def startsMention (l : List Char) : Bool :=
  match l with
  | a :: c :: _ => a == '@' && isWordChar c
  | _ => false

/-- `re.sub(r'http\S+|www\S+|https\S+', '', text)`, as a left-to-right
scan.  When a match starts at the current position, the matched text is
exactly the maximal non-whitespace run there (the `http`/`www` prefix
characters are themselves non-whitespace, and `\S+` greedily takes the
rest of the run); scanning resumes at the match end, which is whitespace
or the end of the string.  `inMatch` records whether the scan is
currently inside a match being deleted. -/
def stripUrlsGo : Bool → List Char → List Char
  | _, [] => []
  | true, c :: cs =>
    if !isSpc c then stripUrlsGo true cs
    else c :: stripUrlsGo false cs
  | false, c :: cs =>
    if startsUrl (c :: cs) then stripUrlsGo true cs
    else c :: stripUrlsGo false cs

def stripUrls (l : List Char) : List Char :=
  stripUrlsGo false l

/-- `re.sub(r'@\w+', '', text)`: the matched text is the `@` plus the
maximal non-empty word-character run after it; scanning resumes at the
match end, which may itself start a new `@\w+` match. -/
def stripMentionsGo : Bool → List Char → List Char
  | _, [] => []
  | true, c :: cs =>
    if isWordChar c then stripMentionsGo true cs
    else if startsMention (c :: cs) then stripMentionsGo true cs
    else c :: stripMentionsGo false cs
  | false, c :: cs =>
    if startsMention (c :: cs) then stripMentionsGo true cs
    else c :: stripMentionsGo false cs

def stripMentions (l : List Char) : List Char :=
  stripMentionsGo false l

/-- `re.sub(r'\s+', ' ', text)`: each maximal whitespace run becomes one
space (the mode records that the single replacement space has already
been emitted for the current run). -/
def collapseWsGo : Bool → List Char → List Char
  | _, [] => []
  | true, c :: cs =>
    if isSpc c then collapseWsGo true cs
    else c :: collapseWsGo false cs
  | false, c :: cs =>
    if isSpc c then ' ' :: collapseWsGo true cs
    else c :: collapseWsGo false cs

def collapseWs (l : List Char) : List Char :=
  collapseWsGo false l

/-- Python `str.strip()`: drop whitespace from both ends. -/
def pyStrip (l : List Char) : List Char :=
  ((l.dropWhile isSpc).reverse.dropWhile isSpc).reverse

/-- Python `str.lower()` (ASCII model). -/
def lowerStr (l : List Char) : List Char :=
  l.map Char.toLower

def preprocess_list (l : List Char) : List Char :=
  lowerStr (pyStrip (collapseWs (stripMentions (stripUrls l))))

def preprocess_tweet (text : String) : String :=
  ⟨preprocess_list text.toList⟩

/-! Scan-state predicates used to analyse the preprocessing passes. -/

/-- No suffix of `l` starts a URL match. -/
def goodU : List Char → Bool
  | [] => true
  | c :: cs => !startsUrl (c :: cs) && goodU cs

/-- No suffix of `l` starts a mention match. -/
def goodM : List Char → Bool
  | [] => true
  | c :: cs => !startsMention (c :: cs) && goodM cs

/-- The head, if any, is not whitespace. -/
def headNotSpc : List Char → Bool
  | [] => true
  | c :: _ => !isSpc c

/-- The head, if any, is not a word character. -/
def headNotWord : List Char → Bool
  | [] => true
  | c :: _ => !isWordChar c

/-- Every whitespace character in `l` is a plain space whose successor is
not whitespace (i.e. `l` is a fixed point of whitespace collapsing). -/
def tidy : List Char → Bool
  | [] => true
  | c :: cs => (!isSpc c || (c == ' ' && headNotSpc cs)) && tidy cs

/-- Trim trailing whitespace only. -/
def backTrim (l : List Char) : List Char :=
  (l.reverse.dropWhile isSpc).reverse

/-! ### `is_crypto_related` (lines 140-147) and the keyword table -/

/-- Occurrence of `pat` as a contiguous substring (Python `in`). -/
def containsSub (pat : List Char) : List Char → Bool
  | [] => pat.isPrefixOf []
  | c :: cs => pat.isPrefixOf (c :: cs) || containsSub pat cs

/-- The `crypto_symbols` keyword table; an unknown symbol has no
keywords (`dict.get(symbol, [])`). -/
def crypto_symbols (symbol : String) : List String :=
  if symbol = "BTC" then ["bitcoin", "btc", "$btc", "#bitcoin", "#btc"]
  else if symbol = "ETH" then ["ethereum", "eth", "$eth", "#ethereum", "#eth"]
  else if symbol = "USDC" then ["usdc", "$usdc", "#usdc", "usd coin"]
  else if symbol = "USDT" then ["usdt", "$usdt", "#usdt", "tether"]
  else []

/-- Case-insensitive keyword match against the raw message text. -/
def is_crypto_related (text : String) (symbol : String) : Bool :=
  (crypto_symbols symbol).any (fun k => containsSub k.toList (lowerStr text.toList))

/-! ### Time-window filtering inside `analyze_symbol_sentiment`
(lines 308-319)

The timestamp parser (`datetime.fromisoformat` plus the `Z` fixup and
`tzinfo` stripping) is an external collaborator, modelled as a partial
function `parse : String → Option ℚ` into a numeric time line; `none`
models the raised `Exception` of an unparseable timestamp, in which case
the tweet is retained. -/

def in_window (parse : String → Option ℚ) (cutoff : ℚ) (t : Tweet) : Bool :=
  match parse t.created_at with
  | some tm => decide (cutoff < tm)
  | none => true

def recent_tweets (parse : String → Option ℚ) (cutoff : ℚ)
    (tweets : List Tweet) : List Tweet :=
  tweets.filter (in_window parse cutoff)

/-! ### `calculate_confidence` (lines 416-438) -/

/-- `round(x, 3)`, modelled as rounding to the nearest multiple of
1/1000. -/
noncomputable def roundTo3 (x : ℝ) : ℝ :=
  (round (x * 1000) : ℤ) / 1000

/-- `mean_compound = sum(compounds) / len(compounds)`. -/
def compound_mean (scores : List SScore) : ℚ :=
  (scores.map (fun s => s.compound)).sum / scores.length

/-- `variance = sum((x - mean_compound) ** 2 for x in compounds) /
len(compounds)` — the population variance (division by `n`). -/
def compound_variance (scores : List SScore) : ℚ :=
  ((scores.map (fun s => s.compound)).map
    (fun x => (x - compound_mean scores) ^ 2)).sum / scores.length

/-- `std_dev = variance ** 0.5`. -/
noncomputable def compound_std_dev (scores : List SScore) : ℝ :=
  Real.sqrt ((compound_variance scores : ℚ) : ℝ)

noncomputable def calculate_confidence (scores : List SScore)
    (tweet_count : ℕ) : ℝ :=
  if scores = [] then 0
  else
    let consistency_score : ℝ := max 0 (1 - compound_std_dev scores * 2)
    let volume_score : ℝ := min 1 ((tweet_count : ℝ) / 100)
    roundTo3 (consistency_score * (7/10) + volume_score * (3/10))

/-! ### `get_neutral_sentiment_result` (lines 440-465) and the result
record.  The wall-clock `timestamp` field and the constant `thresholds`
sub-record are omitted from the embedding (they carry no policy). -/

structure AnalyzerResult where
  symbol : String
  compound : ℚ
  adjusted_compound : ℚ
  positive : ℚ
  negative : ℚ
  neutral : ℚ
  trading_signal : String
  confidence : ℝ
  tweet_count : ℕ
  volume_multiplier : ℚ
  raw_tweets_analyzed : ℕ
  error : Option String

def get_neutral_sentiment_result (symbol : String)
    (error : Option String := none) : AnalyzerResult :=
  { symbol := symbol
    compound := 0
    adjusted_compound := 0
    positive := 0
    negative := 0
    neutral := 1
    trading_signal := "NEUTRAL"
    confidence := 0
    tweet_count := 0
    volume_multiplier := 1
    raw_tweets_analyzed := 0
    error := error }

/-! ### `analyze_symbol_sentiment` (lines 295-392)

The Vader scorer is the parameter `score` (`analyze_text_sentiment`
applies it to the preprocessed text; its internal `try/except` fallback
makes it total).  `fetch_twitter_data` is external: the fetched batch is
the `tweets` argument. -/

/-- The `sentiment_scores` list: one weighted sample per relevant
tweet. -/
def sentiment_samples (score : String → Polarity) (symbol : String)
    (tweets : List Tweet) : List SScore :=
  (tweets.filter (fun t => is_crypto_related t.text symbol)).map (fun t =>
    let p := score (preprocess_tweet t.text)
    ⟨p.compound, p.positive, p.negative, p.neutral,
      calculate_engagement_weight t⟩)

noncomputable def analyze_symbol_sentiment (score : String → Polarity)
    (parse : String → Option ℚ) (now : ℚ) (hours_back : ℚ)
    (symbol : String) (tweets : List Tweet) : AnalyzerResult :=
  if tweets = [] then get_neutral_sentiment_result symbol
  else
    let cutoff := now - hours_back
    let recent := recent_tweets parse cutoff tweets
    if recent = [] then get_neutral_sentiment_result symbol
    else
      let samples := sentiment_samples score symbol recent
      if samples = [] then get_neutral_sentiment_result symbol
      else
        let n := samples.length
        let vm := get_volume_multiplier n
        let adj := weighted_compound samples * vm
        { symbol := symbol
          compound := weighted_compound samples
          adjusted_compound := adj
          positive := weighted_positive samples
          negative := weighted_negative samples
          neutral := weighted_neutral samples
          trading_signal := generate_trading_signal adj
          confidence := calculate_confidence samples n
          tweet_count := n
          volume_multiplier := vm
          raw_tweets_analyzed := n
          error := none }

/-- The `try/except` wrapper of `analyze_symbol_sentiment` (lines
300, 390-392): a runtime failure of the body (an environmental event
outside the pure pipeline) is modelled by the `raised` parameter; when it
fires, the neutral result annotated with the error is returned. -/
noncomputable def analyze_symbol_guarded (raised : Option String)
    (score : String → Polarity) (parse : String → Option ℚ)
    (now hours_back : ℚ) (symbol : String) (tweets : List Tweet) :
    AnalyzerResult :=
  match raised with
  | some msg => get_neutral_sentiment_result symbol (some msg)
  | none => analyze_symbol_sentiment score parse now hours_back symbol tweets

/-! ### `analyze_multiple_symbols` (lines 467-484) -/

/-- One iteration of the loop body: evaluate the symbol, absorbing a
per-symbol failure (`e s = .error msg`) into the annotated neutral
result. -/
def batch_slot (e : String → Except String AnalyzerResult)
    (s : String) : AnalyzerResult :=
  match e s with
  | .ok r => r
  | .error msg => get_neutral_sentiment_result s (some msg)

def analyze_multiple_symbols (e : String → Except String AnalyzerResult)
    (symbols : List String) : List (String × AnalyzerResult) :=
  symbols.map (fun s => (s, batch_slot e s))

end SentimentAnalyzer

namespace SentimentAnalyzer

/-! ## Claim theorems for the tier functions -/

/-- C1: the signal classifier returns BUY exactly when the adjusted
compound score exceeds 0.06, SELL exactly when it is below 0.04, and
NEUTRAL exactly on the closed middle band; both boundary values 0.04 and
0.06 classify as NEUTRAL. The classifier is a pure function of the score
alone (it is a plain function of one `ℚ` argument, defined without any
state). -/
theorem C1_signal_classifier (x : ℚ) :
    (generate_trading_signal x = "BUY" ↔ x > 6/100) ∧
    (generate_trading_signal x = "SELL" ↔ x < 4/100) ∧
    (generate_trading_signal x = "NEUTRAL" ↔ (4/100 ≤ x ∧ x ≤ 6/100)) ∧
    generate_trading_signal (4/100) = "NEUTRAL" ∧
    generate_trading_signal (6/100) = "NEUTRAL" := by
  unfold generate_trading_signal BUY_THRESHOLD SELL_THRESHOLD
  refine ⟨?_, ?_, ?_, by norm_num, by norm_num⟩
  · constructor
    · intro h
      by_contra hx
      simp only [if_neg hx] at h
      split at h <;> simp_all
    · intro h; simp [h]
  · constructor
    · intro h
      split at h
      · simp_all
      · split at h
        · assumption
        · simp_all
    · intro h
      have : ¬ x > 6/100 := by linarith
      simp [this, h]
  · constructor
    · intro h
      split at h
      · simp_all
      · split at h
        · simp_all
        · constructor <;> linarith [not_lt.mp (by assumption : ¬ x < 4/100),
            not_lt.mp (by assumption : ¬ x > 6/100)]
    · intro h
      have h1 : ¬ x > 6/100 := by linarith [h.2]
      have h2 : ¬ x < 4/100 := by linarith [h.1]
      simp [h1, h2]

/-- C2: the volume multiplier is 1.5 exactly above 500 samples, 0.5
exactly below 100, and exactly 1.0 on the inclusive band [100, 500]; in
particular 100 and 500 give 1.0, 99 gives 0.5, and 501 gives 1.5. -/
theorem C2_volume_multiplier (n : ℕ) :
    (get_volume_multiplier n = 15/10 ↔ n > 500) ∧
    (get_volume_multiplier n = 5/10 ↔ n < 100) ∧
    (get_volume_multiplier n = 1 ↔ (100 ≤ n ∧ n ≤ 500)) ∧
    get_volume_multiplier 100 = 1 ∧
    get_volume_multiplier 500 = 1 ∧
    get_volume_multiplier 99 = 5/10 ∧
    get_volume_multiplier 501 = 15/10 := by
  unfold get_volume_multiplier HIGH_VOLUME_THRESHOLD LOW_VOLUME_THRESHOLD
    HIGH_VOLUME_MULTIPLIER LOW_VOLUME_MULTIPLIER
  refine ⟨?_, ?_, ?_, by norm_num, by norm_num, by norm_num, by norm_num⟩
  · constructor
    · intro h
      by_contra hn
      simp only [if_neg hn] at h
      split at h <;> norm_num at h
    · intro h; simp [h]
  · constructor
    · intro h
      split at h
      · norm_num at h
      · split at h
        · assumption
        · norm_num at h
    · intro h
      have : ¬ n > 500 := by omega
      simp [this, h]
  · constructor
    · intro h
      split at h
      · norm_num at h
      · split at h
        · norm_num at h
        · omega
    · intro h
      have h1 : ¬ n > 500 := by omega
      have h2 : ¬ n < 100 := by omega
      simp [h1, h2]

/-- C3: the engagement weight is the exact step function of
`s = 3*retweets + 1*likes + 2*replies`: weight 1.0 iff `s = 0`, 0.8 iff
`0 < s < 10`, 1.2 iff `10 ≤ s < 50`, 1.5 iff `s ≥ 50`. -/
theorem C3_engagement_weight (t : Tweet) :
    (calculate_engagement_weight t = 1 ↔
      3 * t.retweet_count + 1 * t.like_count + 2 * t.reply_count = 0) ∧
    (calculate_engagement_weight t = 8/10 ↔
      (0 < 3 * t.retweet_count + 1 * t.like_count + 2 * t.reply_count ∧
        3 * t.retweet_count + 1 * t.like_count + 2 * t.reply_count < 10)) ∧
    (calculate_engagement_weight t = 12/10 ↔
      (10 ≤ 3 * t.retweet_count + 1 * t.like_count + 2 * t.reply_count ∧
        3 * t.retweet_count + 1 * t.like_count + 2 * t.reply_count < 50)) ∧
    (calculate_engagement_weight t = 15/10 ↔
      50 ≤ 3 * t.retweet_count + 1 * t.like_count + 2 * t.reply_count) := by
  have hs : engagement_score t =
      3 * t.retweet_count + 1 * t.like_count + 2 * t.reply_count := by
    unfold engagement_score; ring
  unfold calculate_engagement_weight
  rw [hs]
  set s := 3 * t.retweet_count + 1 * t.like_count + 2 * t.reply_count with hsdef
  refine ⟨?_, ?_, ?_, ?_⟩
  · constructor
    · intro h
      by_contra hn
      simp only [if_neg hn] at h
      split at h
      · norm_num at h
      · split at h <;> norm_num at h
    · intro h; simp [h]
  · constructor
    · intro h
      split at h
      · norm_num at h
      · split at h
        · omega
        · split at h <;> norm_num at h
    · intro h
      have h0 : ¬ s = 0 := by omega
      simp [h0, h.2]
  · constructor
    · intro h
      split at h
      · norm_num at h
      · split at h
        · norm_num at h
        · split at h
          · omega
          · norm_num at h
    · intro h
      have h0 : ¬ s = 0 := by omega
      have h1 : ¬ s < 10 := by omega
      simp [h0, h1, h.2]
  · constructor
    · intro h
      split at h
      · norm_num at h
      · split at h
        · norm_num at h
        · split at h
          · norm_num at h
          · omega
    · intro h
      have h0 : ¬ s = 0 := by omega
      have h1 : ¬ s < 10 := by omega
      have h2 : ¬ s < 50 := by omega
      simp [h0, h1, h2]

/-- C10: every engagement weight the code can produce lies in
{0.8, 1.0, 1.2, 1.5}; the value 0.5 is never produced; every weight is at
least 0.8; hence the total weight of a non-empty sample set is strictly
positive. -/
theorem C10_weight_domain (t : Tweet) (l : List Tweet) (hl : l ≠ []) :
    (calculate_engagement_weight t = 8/10 ∨ calculate_engagement_weight t = 1 ∨
      calculate_engagement_weight t = 12/10 ∨ calculate_engagement_weight t = 15/10) ∧
    calculate_engagement_weight t ≠ 5/10 ∧
    8/10 ≤ calculate_engagement_weight t ∧
    0 < total_weight (l.map (fun u =>
      ⟨0, 0, 0, 1, calculate_engagement_weight u⟩)) := by
  have hmem : ∀ u : Tweet, (8:ℚ)/10 ≤ calculate_engagement_weight u := by
    intro u
    unfold calculate_engagement_weight
    split
    · norm_num
    · split
      · norm_num
      · split <;> norm_num
  refine ⟨?_, ?_, hmem t, ?_⟩
  · unfold calculate_engagement_weight
    split
    · tauto
    · split
      · tauto
      · split <;> tauto
  · intro h
    have := hmem t
    rw [h] at this
    norm_num at this
  · unfold total_weight
    rw [List.map_map]
    show 0 < (l.map (fun u => calculate_engagement_weight u)).sum
    cases l with
    | nil => exact absurd rfl hl
    | cons a as =>
      rw [List.map_cons, List.sum_cons]
      have ha := hmem a
      have hsum : (0:ℚ) ≤ (as.map (fun u => calculate_engagement_weight u)).sum := by
        apply List.sum_nonneg
        intro x hx
        obtain ⟨u, _, rfl⟩ := List.mem_map.mp hx
        have := hmem u
        linarith
      linarith

/-- C4: each aggregate score is the weighted mean Σ(value·weight)/Σ(weight)
over the sample set, and two samples with weights 1 and 3 and compounds
0.2 and 0.6 aggregate to 0.5. -/
theorem C4_weighted_mean (l : List SScore) :
    weighted_compound l =
      (l.map (fun s => s.compound * s.weight)).sum / (l.map (fun s => s.weight)).sum ∧
    weighted_positive l =
      (l.map (fun s => s.positive * s.weight)).sum / (l.map (fun s => s.weight)).sum ∧
    weighted_negative l =
      (l.map (fun s => s.negative * s.weight)).sum / (l.map (fun s => s.weight)).sum ∧
    weighted_neutral l =
      (l.map (fun s => s.neutral * s.weight)).sum / (l.map (fun s => s.weight)).sum ∧
    weighted_compound [⟨2/10, 0, 0, 0, 1⟩, ⟨6/10, 0, 0, 0, 3⟩] = 5/10 := by
  refine ⟨rfl, rfl, rfl, rfl, ?_⟩
  norm_num [weighted_compound, total_weight]

/-- C7: a message whose timestamp string fails to parse is retained by
the time-window filter (fail-open policy). -/
theorem C7_fail_open (parse : String → Option ℚ) (cutoff : ℚ)
    (tweets : List Tweet) (t : Tweet) (ht : t ∈ tweets)
    (hp : parse t.created_at = none) :
    t ∈ recent_tweets parse cutoff tweets := by
  unfold recent_tweets
  exact List.mem_filter.mpr ⟨ht, by simp [in_window, hp]⟩

/-- C7 witness: a concrete unparseable tweet is retained. -/
theorem C7_fail_open_witness :
    (⟨"a", "t", "garbage", 0, 0, 0⟩ : Tweet) ∈
      recent_tweets (fun _ => none) 0 [⟨"a", "t", "garbage", 0, 0, 0⟩] :=
  C7_fail_open (fun _ => none) 0 [⟨"a", "t", "garbage", 0, 0, 0⟩]
    ⟨"a", "t", "garbage", 0, 0, 0⟩ (List.mem_singleton.mpr rfl) rfl

/-- C5: the analysis result has sample count 0 exactly when no message
passed both the time-window filter and the relevance filter, and in that
case the scores are compound 0, positive 0, negative 0, neutral 1, the
signal is NEUTRAL and the confidence is 0. -/
theorem C5_zero_sample_iff (score : String → Polarity)
    (parse : String → Option ℚ) (now hours_back : ℚ) (symbol : String)
    (tweets : List Tweet) :
    ((analyze_symbol_sentiment score parse now hours_back symbol tweets).tweet_count = 0 ↔
      (recent_tweets parse (now - hours_back) tweets).filter
        (fun t => is_crypto_related t.text symbol) = []) ∧
    ((recent_tweets parse (now - hours_back) tweets).filter
        (fun t => is_crypto_related t.text symbol) = [] →
      (analyze_symbol_sentiment score parse now hours_back symbol tweets).compound = 0 ∧
      (analyze_symbol_sentiment score parse now hours_back symbol tweets).positive = 0 ∧
      (analyze_symbol_sentiment score parse now hours_back symbol tweets).negative = 0 ∧
      (analyze_symbol_sentiment score parse now hours_back symbol tweets).neutral = 1 ∧
      (analyze_symbol_sentiment score parse now hours_back symbol tweets).trading_signal
        = "NEUTRAL" ∧
      (analyze_symbol_sentiment score parse now hours_back symbol tweets).confidence = 0) := by
  set passing := (recent_tweets parse (now - hours_back) tweets).filter
    (fun t => is_crypto_related t.text symbol) with hpassing
  have hsamples : sentiment_samples score symbol
      (recent_tweets parse (now - hours_back) tweets)
        = [] ↔ passing = [] := by
    rw [hpassing]
    unfold sentiment_samples
    exact List.map_eq_nil_iff
  by_cases h0 : tweets = []
  · have hp : passing = [] := by
      rw [hpassing, h0]
      rfl
    unfold analyze_symbol_sentiment
    rw [if_pos h0]
    refine ⟨by simp [get_neutral_sentiment_result, hp], fun _ => ?_⟩
    simp [get_neutral_sentiment_result]
  · by_cases h1 : recent_tweets parse (now - hours_back) tweets = []
    · have hp : passing = [] := by rw [hpassing, h1]; rfl
      unfold analyze_symbol_sentiment
      rw [if_neg h0, if_pos h1]
      refine ⟨by simp [get_neutral_sentiment_result, hp], fun _ => ?_⟩
      simp [get_neutral_sentiment_result]
    · by_cases h2 : sentiment_samples score symbol
          (recent_tweets parse (now - hours_back) tweets) = []
      · have hp : passing = [] := hsamples.mp h2
        unfold analyze_symbol_sentiment
        rw [if_neg h0, if_neg h1, if_pos h2]
        refine ⟨by simp [get_neutral_sentiment_result, hp], fun _ => ?_⟩
        simp [get_neutral_sentiment_result]
      · have hp : passing ≠ [] := fun h => h2 (hsamples.mpr h)
        unfold analyze_symbol_sentiment
        rw [if_neg h0, if_neg h1, if_neg h2]
        constructor
        · simp only []
          constructor
          · intro hlen
            exact absurd (List.length_eq_zero.mp hlen) h2
          · intro h
            exact absurd h hp
        · intro h
          exact absurd h hp

/-- C5 witness: with no input messages the sample count is 0 and the
zero-data fields hold. -/
theorem C5_zero_sample_iff_witness :
    ((analyze_symbol_sentiment (fun _ => ⟨0, 0, 0, 1⟩) (fun _ => none) 0 1
        "BTC" []).tweet_count = 0 ↔
      (recent_tweets (fun _ => none) (0 - 1) []).filter
        (fun t => is_crypto_related t.text "BTC") = []) ∧
    ((analyze_symbol_sentiment (fun _ => ⟨0, 0, 0, 1⟩) (fun _ => none) 0 1
        "BTC" []).compound = 0 ∧
      (analyze_symbol_sentiment (fun _ => ⟨0, 0, 0, 1⟩) (fun _ => none) 0 1
        "BTC" []).positive = 0 ∧
      (analyze_symbol_sentiment (fun _ => ⟨0, 0, 0, 1⟩) (fun _ => none) 0 1
        "BTC" []).negative = 0 ∧
      (analyze_symbol_sentiment (fun _ => ⟨0, 0, 0, 1⟩) (fun _ => none) 0 1
        "BTC" []).neutral = 1 ∧
      (analyze_symbol_sentiment (fun _ => ⟨0, 0, 0, 1⟩) (fun _ => none) 0 1
        "BTC" []).trading_signal = "NEUTRAL" ∧
      (analyze_symbol_sentiment (fun _ => ⟨0, 0, 0, 1⟩) (fun _ => none) 0 1
        "BTC" []).confidence = 0) :=
  ⟨(C5_zero_sample_iff (fun _ => ⟨0, 0, 0, 1⟩) (fun _ => none) 0 1 "BTC" []).1,
    (C5_zero_sample_iff (fun _ => ⟨0, 0, 0, 1⟩) (fun _ => none) 0 1 "BTC" []).2 rfl⟩

theorem round_mono_real {x y : ℝ} (h : x ≤ y) : round x ≤ round y := by
  rw [round_eq, round_eq]
  exact Int.floor_mono (by linarith)

theorem roundTo3_bounds {x : ℝ} (h0 : 0 ≤ x) (h1 : x ≤ 1) :
    0 ≤ roundTo3 x ∧ roundTo3 x ≤ 1 := by
  unfold roundTo3
  have hlo : (0 : ℤ) ≤ round (x * 1000) := by
    have h := round_mono_real (show (0 : ℝ) ≤ x * 1000 by nlinarith)
    rwa [round_zero] at h
  have hhi : round (x * 1000) ≤ 1000 := by
    have h := round_mono_real (show x * 1000 ≤ (1000 : ℝ) by nlinarith)
    simpa using h
  constructor
  · exact div_nonneg (by exact_mod_cast hlo) (by norm_num)
  · rw [div_le_one (by norm_num)]
    exact_mod_cast hhi

/-- C8: for a non-empty sample set of size n, the confidence equals
round(0.7 · max(0, 1 − 2σ) + 0.3 · min(1, n/100), 3) with σ the
population standard deviation of the unweighted compound values, and it
always lies in [0, 1]. -/
theorem C8_confidence (l : List SScore) (h : l ≠ []) :
    calculate_confidence l l.length =
      roundTo3 ((7/10) * max 0 (1 - 2 * compound_std_dev l) +
        (3/10) * min 1 ((l.length : ℝ) / 100)) ∧
    0 ≤ calculate_confidence l l.length ∧
    calculate_confidence l l.length ≤ 1 := by
  have hσ : 0 ≤ compound_std_dev l := Real.sqrt_nonneg _
  have hc0 : (0 : ℝ) ≤ max 0 (1 - compound_std_dev l * 2) := le_max_left _ _
  have hc1 : max 0 (1 - compound_std_dev l * 2) ≤ 1 :=
    max_le (by norm_num) (by linarith)
  have hv0 : (0 : ℝ) ≤ min 1 ((l.length : ℝ) / 100) :=
    le_min (by norm_num) (div_nonneg (Nat.cast_nonneg _) (by norm_num))
  have hv1 : min 1 ((l.length : ℝ) / 100) ≤ 1 := min_le_left _ _
  have hx0 : (0 : ℝ) ≤ max 0 (1 - compound_std_dev l * 2) * (7/10) +
      min 1 ((l.length : ℝ) / 100) * (3/10) := by
    have h1 := mul_nonneg hc0 (show (0:ℝ) ≤ 7/10 by norm_num)
    have h2 := mul_nonneg hv0 (show (0:ℝ) ≤ 3/10 by norm_num)
    linarith
  have hx1 : max 0 (1 - compound_std_dev l * 2) * (7/10) +
      min 1 ((l.length : ℝ) / 100) * (3/10) ≤ 1 := by
    have h1 := mul_le_mul_of_nonneg_right hc1 (show (0:ℝ) ≤ 7/10 by norm_num)
    have h2 := mul_le_mul_of_nonneg_right hv1 (show (0:ℝ) ≤ 3/10 by norm_num)
    linarith
  have hb := roundTo3_bounds hx0 hx1
  have heq : calculate_confidence l l.length =
      roundTo3 (max 0 (1 - compound_std_dev l * 2) * (7/10) +
        min 1 ((l.length : ℝ) / 100) * (3/10)) := by
    unfold calculate_confidence
    rw [if_neg h]
  refine ⟨?_, ?_, ?_⟩
  · rw [heq]
    congr 1
    rw [mul_comm (compound_std_dev l) 2]
    ring
  · rw [heq]; exact hb.1
  · rw [heq]; exact hb.2

/-- C8 witness: the formula and the [0, 1] bound at a concrete singleton
sample set. -/
theorem C8_confidence_witness :
    calculate_confidence [⟨0, 0, 0, 1, 1⟩] [(⟨0, 0, 0, 1, 1⟩ : SScore)].length =
      roundTo3 ((7/10) * max 0 (1 - 2 * compound_std_dev [⟨0, 0, 0, 1, 1⟩]) +
        (3/10) * min 1 (([(⟨0, 0, 0, 1, 1⟩ : SScore)].length : ℝ) / 100)) ∧
    0 ≤ calculate_confidence [⟨0, 0, 0, 1, 1⟩] [(⟨0, 0, 0, 1, 1⟩ : SScore)].length ∧
    calculate_confidence [⟨0, 0, 0, 1, 1⟩] [(⟨0, 0, 0, 1, 1⟩ : SScore)].length ≤ 1 :=
  C8_confidence [⟨0, 0, 0, 1, 1⟩] (by simp)

/-- C9: the per-symbol loop body of the batch analyzer resolves a failing
symbol to the zero-data result annotated with the error, every symbol's
slot appears in the batch output, a symbol's slot depends only on its own
evaluation, and the guard around `analyze_symbol_sentiment` converts a
raised error into the annotated zero-data result. -/
theorem C9_error_isolation (e e₁ e₂ : String → Except String AnalyzerResult)
    (symbols : List String) (s msg : String) (score : String → Polarity)
    (parse : String → Option ℚ) (now hours_back : ℚ) (tweets : List Tweet) :
    (e s = .error msg →
      batch_slot e s = get_neutral_sentiment_result s (some msg)) ∧
    (s ∈ symbols → (s, batch_slot e s) ∈ analyze_multiple_symbols e symbols) ∧
    (e₁ s = e₂ s → batch_slot e₁ s = batch_slot e₂ s) ∧
    analyze_symbol_guarded (some msg) score parse now hours_back s tweets =
      get_neutral_sentiment_result s (some msg) := by
  refine ⟨?_, ?_, ?_, rfl⟩
  · intro h
    unfold batch_slot
    rw [h]
  · intro h
    unfold analyze_multiple_symbols
    exact List.mem_map.mpr ⟨s, h, rfl⟩
  · intro h
    unfold batch_slot
    rw [h]

/-- C9 witness: a concrete failing evaluator yields the annotated neutral
slot inside the batch output. -/
theorem C9_error_isolation_witness :
    batch_slot (fun _ => .error "boom") "BTC" =
      get_neutral_sentiment_result "BTC" (some "boom") ∧
    ("BTC", batch_slot (fun _ => .error "boom") "BTC") ∈
      analyze_multiple_symbols (fun _ => .error "boom") ["BTC", "ETH"] ∧
    batch_slot (fun _ => .error "boom") "BTC" =
      batch_slot (fun _ => .error "boom") "BTC" ∧
    analyze_symbol_guarded (some "boom") (fun _ => ⟨0, 0, 0, 1⟩)
      (fun _ => none) 0 1 "BTC" [] =
      get_neutral_sentiment_result "BTC" (some "boom") :=
  ⟨(C9_error_isolation (fun _ => .error "boom") (fun _ => .error "boom")
      (fun _ => .error "boom") ["BTC", "ETH"] "BTC" "boom"
      (fun _ => ⟨0, 0, 0, 1⟩) (fun _ => none) 0 1 []).1 rfl,
    (C9_error_isolation (fun _ => .error "boom") (fun _ => .error "boom")
      (fun _ => .error "boom") ["BTC", "ETH"] "BTC" "boom"
      (fun _ => ⟨0, 0, 0, 1⟩) (fun _ => none) 0 1 []).2.1
      (List.mem_cons_self _ _),
    (C9_error_isolation (fun _ => .error "boom") (fun _ => .error "boom")
      (fun _ => .error "boom") ["BTC", "ETH"] "BTC" "boom"
      (fun _ => ⟨0, 0, 0, 1⟩) (fun _ => none) 0 1 []).2.2.1 rfl,
    (C9_error_isolation (fun _ => .error "boom") (fun _ => .error "boom")
      (fun _ => .error "boom") ["BTC", "ETH"] "BTC" "boom"
      (fun _ => ⟨0, 0, 0, 1⟩) (fun _ => none) 0 1 []).2.2.2⟩

/-- C10 witness: the bound holds at a concrete tweet and a concrete
non-empty list. -/
theorem C10_weight_domain_witness :
    (calculate_engagement_weight ⟨"a", "t", "ts", 0, 0, 0⟩ = 8/10 ∨
      calculate_engagement_weight ⟨"a", "t", "ts", 0, 0, 0⟩ = 1 ∨
      calculate_engagement_weight ⟨"a", "t", "ts", 0, 0, 0⟩ = 12/10 ∨
      calculate_engagement_weight ⟨"a", "t", "ts", 0, 0, 0⟩ = 15/10) ∧
    calculate_engagement_weight ⟨"a", "t", "ts", 0, 0, 0⟩ ≠ 5/10 ∧
    8/10 ≤ calculate_engagement_weight ⟨"a", "t", "ts", 0, 0, 0⟩ ∧
    0 < total_weight ([⟨"a", "t", "ts", 0, 0, 0⟩].map (fun u =>
      ⟨0, 0, 0, 1, calculate_engagement_weight u⟩)) :=
  C10_weight_domain ⟨"a", "t", "ts", 0, 0, 0⟩ [⟨"a", "t", "ts", 0, 0, 0⟩]
    (by decide)

end SentimentAnalyzer

namespace SentimentAnalyzer

/-! ## Preprocessing analysis

Equation lemmas giving the three scanners their match-oriented shape, and
the structural facts needed to settle the idempotence claim. -/

theorem length_dropWhile_le (p : Char → Bool) (l : List Char) :
    (l.dropWhile p).length ≤ l.length := by
  induction l with
  | nil => simp
  | cons c cs ih =>
    by_cases h : p c
    · rw [List.dropWhile_cons_of_pos h]
      exact Nat.le_trans ih (Nat.le_succ _)
    · rw [List.dropWhile_cons_of_neg h]

theorem startsUrl_nil : startsUrl [] = false := rfl

theorem startsUrl_head {c : Char} {cs : List Char}
    (h : startsUrl (c :: cs) = true) : c = 'h' ∨ c = 'w' := by
  simp only [startsUrl, Bool.or_eq_true, Bool.and_eq_true, beq_iff_eq] at h
  rcases h with ⟨h4, _⟩ | ⟨h3, _⟩
  · left
    cases cs <;> simp_all [List.take]
  · right
    cases cs <;> simp_all [List.take]

theorem startsUrl_spc {c : Char} {cs : List Char} (h : isSpc c = true) :
    startsUrl (c :: cs) = false := by
  cases hu : startsUrl (c :: cs)
  · rfl
  · rcases startsUrl_head hu with rfl | rfl <;> simp [isSpc] at h

theorem stripUrlsGo_skip (l : List Char) :
    stripUrlsGo true l = stripUrls (l.dropWhile (fun a => !isSpc a)) := by
  induction l with
  | nil => rfl
  | cons c cs ih =>
    by_cases h : isSpc c
    · have hdw : List.dropWhile (fun a => !isSpc a) (c :: cs) = c :: cs := by
        rw [List.dropWhile_cons]
        simp [h]
      rw [hdw]
      show (if !isSpc c then stripUrlsGo true cs else c :: stripUrlsGo false cs)
        = stripUrls (c :: cs)
      rw [if_neg (by simp [h])]
      show c :: stripUrlsGo false cs
        = if startsUrl (c :: cs) then stripUrlsGo true cs
          else c :: stripUrlsGo false cs
      rw [if_neg (by simp [startsUrl_spc h])]
    · have hdw : List.dropWhile (fun a => !isSpc a) (c :: cs)
          = List.dropWhile (fun a => !isSpc a) cs := by
        rw [List.dropWhile_cons]
        simp [h]
      rw [hdw]
      show (if !isSpc c then stripUrlsGo true cs else c :: stripUrlsGo false cs)
        = stripUrls (cs.dropWhile fun a => !isSpc a)
      rw [if_pos (by simp [h])]
      exact ih

theorem stripUrls_nil : stripUrls [] = [] := rfl

theorem stripUrls_cons (c : Char) (cs : List Char) :
    stripUrls (c :: cs) =
      if startsUrl (c :: cs) then stripUrls (cs.dropWhile (fun a => !isSpc a))
      else c :: stripUrls cs := by
  show stripUrlsGo false (c :: cs) = _
  show (if startsUrl (c :: cs) then stripUrlsGo true cs
    else c :: stripUrlsGo false cs) = _
  by_cases h : startsUrl (c :: cs)
  · rw [if_pos h, if_pos h, stripUrlsGo_skip]
  · rw [if_neg h, if_neg h]
    rfl

theorem startsMention_nil : startsMention [] = false := rfl

theorem startsMention_elim {c : Char} {cs : List Char}
    (h : startsMention (c :: cs) = true) :
    c = '@' ∧ ∃ d r, cs = d :: r ∧ isWordChar d = true := by
  cases cs with
  | nil => simp [startsMention] at h
  | cons d r =>
    simp only [startsMention, Bool.and_eq_true, beq_iff_eq] at h
    exact ⟨h.1, d, r, rfl, h.2⟩

theorem startsMention_intro {d : Char} {r : List Char}
    (hd : isWordChar d = true) : startsMention ('@' :: d :: r) = true := by
  simp [startsMention, hd]

theorem stripMentionsGo_skip (l : List Char) :
    stripMentionsGo true l = stripMentions (l.dropWhile isWordChar) := by
  induction l with
  | nil => rfl
  | cons c cs ih =>
    by_cases h : isWordChar c
    · rw [List.dropWhile_cons_of_pos h]
      show (if isWordChar c then stripMentionsGo true cs
        else if startsMention (c :: cs) then stripMentionsGo true cs
        else c :: stripMentionsGo false cs) = _
      rw [if_pos h]
      exact ih
    · rw [List.dropWhile_cons_of_neg h]
      show (if isWordChar c then stripMentionsGo true cs
        else if startsMention (c :: cs) then stripMentionsGo true cs
        else c :: stripMentionsGo false cs) = stripMentionsGo false (c :: cs)
      rw [if_neg h]
      rfl

theorem stripMentions_nil : stripMentions [] = [] := rfl

theorem stripMentions_cons (c : Char) (cs : List Char) :
    stripMentions (c :: cs) =
      if startsMention (c :: cs) then stripMentions (cs.dropWhile isWordChar)
      else c :: stripMentions cs := by
  show stripMentionsGo false (c :: cs) = _
  show (if startsMention (c :: cs) then stripMentionsGo true cs
    else c :: stripMentionsGo false cs) = _
  by_cases h : startsMention (c :: cs)
  · rw [if_pos h, if_pos h, stripMentionsGo_skip]
  · rw [if_neg h, if_neg h]
    rfl

theorem collapseWsGo_skip (l : List Char) :
    collapseWsGo true l = collapseWs (l.dropWhile isSpc) := by
  induction l with
  | nil => rfl
  | cons c cs ih =>
    by_cases h : isSpc c
    · rw [List.dropWhile_cons_of_pos h]
      show (if isSpc c then collapseWsGo true cs
        else c :: collapseWsGo false cs) = _
      rw [if_pos h]
      exact ih
    · rw [List.dropWhile_cons_of_neg h]
      show (if isSpc c then collapseWsGo true cs
        else c :: collapseWsGo false cs) = collapseWsGo false (c :: cs)
      rw [if_neg h]
      show c :: collapseWsGo false cs = _
      show _ = if isSpc c then ' ' :: collapseWsGo true cs
        else c :: collapseWsGo false cs
      rw [if_neg h]

theorem collapseWs_nil : collapseWs [] = [] := rfl

theorem collapseWs_cons (c : Char) (cs : List Char) :
    collapseWs (c :: cs) =
      if isSpc c then ' ' :: collapseWs (cs.dropWhile isSpc)
      else c :: collapseWs cs := by
  show collapseWsGo false (c :: cs) = _
  show (if isSpc c then ' ' :: collapseWsGo true cs
    else c :: collapseWsGo false cs) = _
  by_cases h : isSpc c
  · rw [if_pos h, if_pos h, collapseWsGo_skip]
  · rw [if_neg h, if_neg h]
    rfl

end SentimentAnalyzer

namespace SentimentAnalyzer

theorem startsUrl_cons_elim {c : Char} {z : List Char}
    (h : startsUrl (c :: z) = true) :
    (c = 'h' ∧ ∃ d r, z = 't' :: 't' :: 'p' :: d :: r ∧ isSpc d = false) ∨
    (c = 'w' ∧ ∃ d r, z = 'w' :: 'w' :: d :: r ∧ isSpc d = false) := by
  rcases z with _ | ⟨z1, _ | ⟨z2, _ | ⟨z3, _ | ⟨z4, zr⟩⟩⟩⟩
  · simp [startsUrl, nonspaceAt] at h
  · simp [startsUrl, nonspaceAt] at h
  · simp [startsUrl, nonspaceAt] at h
  · simp only [startsUrl, nonspaceAt, List.take_succ_cons, List.take_zero,
      List.drop_succ_cons, List.drop_zero, Bool.or_eq_true, Bool.and_eq_true,
      beq_iff_eq, List.cons.injEq, and_true, Bool.not_eq_true'] at h
    rcases h with ⟨⟨_, _⟩, h⟩ | ⟨⟨rfl, rfl, rfl⟩, h⟩
    · simp at h
    · exact Or.inr ⟨rfl, z3, [], rfl, h⟩
  · simp only [startsUrl, nonspaceAt, List.take_succ_cons, List.take_zero,
      List.drop_succ_cons, List.drop_zero, Bool.or_eq_true, Bool.and_eq_true,
      beq_iff_eq, List.cons.injEq, and_true, Bool.not_eq_true'] at h
    rcases h with ⟨⟨rfl, rfl, rfl, rfl⟩, h⟩ | ⟨⟨rfl, rfl, rfl⟩, h⟩
    · exact Or.inl ⟨rfl, z4, zr, rfl, h⟩
    · exact Or.inr ⟨rfl, z3, z4 :: zr, rfl, h⟩

theorem startsUrl_intro_http {d : Char} {r : List Char}
    (hd : isSpc d = false) :
    startsUrl ('h' :: 't' :: 't' :: 'p' :: d :: r) = true := by
  simp [startsUrl, nonspaceAt, hd]

theorem startsUrl_intro_www {d : Char} {r : List Char}
    (hd : isSpc d = false) :
    startsUrl ('w' :: 'w' :: 'w' :: d :: r) = true := by
  simp [startsUrl, nonspaceAt, hd]

theorem take_cons_elim {l : List Char} {j : ℕ} {a : Char} {r : List Char}
    (h : l.take j = a :: r) :
    ∃ l' j', l = a :: l' ∧ j = j' + 1 ∧ l'.take j' = r := by
  cases l with
  | nil => simp at h
  | cons b bs =>
    cases j with
    | zero => simp at h
    | succ j' =>
      rw [List.take_succ_cons] at h
      injection h with h1 h2
      exact ⟨bs, j', by rw [h1], rfl, h2⟩

theorem startsUrl_take {l : List Char} {j : ℕ}
    (h : startsUrl (l.take j) = true) : startsUrl l = true := by
  cases ht : l.take j with
  | nil => rw [ht] at h; simp [startsUrl, nonspaceAt] at h
  | cons c z =>
    rw [ht] at h
    rcases startsUrl_cons_elim h with ⟨rfl, d, r, hz, hd⟩ | ⟨rfl, d, r, hz, hd⟩
    · subst hz
      obtain ⟨l1, _, rfl, _, h1⟩ := take_cons_elim ht
      obtain ⟨l2, _, rfl, _, h2⟩ := take_cons_elim h1
      obtain ⟨l3, _, rfl, _, h3⟩ := take_cons_elim h2
      obtain ⟨l4, _, rfl, _, h4⟩ := take_cons_elim h3
      obtain ⟨l5, _, rfl, _, _⟩ := take_cons_elim h4
      exact startsUrl_intro_http hd
    · subst hz
      obtain ⟨l1, _, rfl, _, h1⟩ := take_cons_elim ht
      obtain ⟨l2, _, rfl, _, h2⟩ := take_cons_elim h1
      obtain ⟨l3, _, rfl, _, h3⟩ := take_cons_elim h2
      obtain ⟨l4, _, rfl, _, _⟩ := take_cons_elim h3
      exact startsUrl_intro_www hd

theorem startsMention_take {l : List Char} {j : ℕ}
    (h : startsMention (l.take j) = true) : startsMention l = true := by
  cases ht : l.take j with
  | nil => rw [ht] at h; simp [startsMention] at h
  | cons c z =>
    rw [ht] at h
    obtain ⟨rfl, d, r, hz, hd⟩ := startsMention_elim h
    subst hz
    obtain ⟨l1, _, rfl, _, h1⟩ := take_cons_elim ht
    obtain ⟨l2, _, rfl, _, _⟩ := take_cons_elim h1
    exact startsMention_intro hd

theorem goodU_cons_iff {c : Char} {cs : List Char} :
    goodU (c :: cs) = true ↔ startsUrl (c :: cs) = false ∧ goodU cs = true := by
  simp [goodU, Bool.not_eq_true']

theorem goodM_cons_iff {c : Char} {cs : List Char} :
    goodM (c :: cs) = true ↔ startsMention (c :: cs) = false ∧ goodM cs = true := by
  simp [goodM, Bool.not_eq_true']

theorem goodU_dropWhile (p : Char → Bool) {l : List Char}
    (h : goodU l = true) : goodU (l.dropWhile p) = true := by
  induction l with
  | nil => simpa using h
  | cons c cs ih =>
    rw [List.dropWhile_cons]
    by_cases hp : p c
    · rw [if_pos hp]
      exact ih (goodU_cons_iff.mp h).2
    · rw [if_neg hp]
      exact h

theorem goodM_dropWhile (p : Char → Bool) {l : List Char}
    (h : goodM l = true) : goodM (l.dropWhile p) = true := by
  induction l with
  | nil => simpa using h
  | cons c cs ih =>
    rw [List.dropWhile_cons]
    by_cases hp : p c
    · rw [if_pos hp]
      exact ih (goodM_cons_iff.mp h).2
    · rw [if_neg hp]
      exact h

theorem goodU_take {l : List Char} (k : ℕ)
    (h : goodU l = true) : goodU (l.take k) = true := by
  induction l generalizing k with
  | nil => simpa using h
  | cons c cs ih =>
    cases k with
    | zero => rfl
    | succ k' =>
      rw [List.take_succ_cons]
      obtain ⟨h1, h2⟩ := goodU_cons_iff.mp h
      refine goodU_cons_iff.mpr ⟨?_, ih k' h2⟩
      cases hu : startsUrl (c :: cs.take k')
      · rfl
      · rw [show c :: cs.take k' = (c :: cs).take (k' + 1) from
          (List.take_succ_cons).symm] at hu
        rw [startsUrl_take hu] at h1
        exact h1

theorem goodM_take {l : List Char} (k : ℕ)
    (h : goodM l = true) : goodM (l.take k) = true := by
  induction l generalizing k with
  | nil => simpa using h
  | cons c cs ih =>
    cases k with
    | zero => rfl
    | succ k' =>
      rw [List.take_succ_cons]
      obtain ⟨h1, h2⟩ := goodM_cons_iff.mp h
      refine goodM_cons_iff.mpr ⟨?_, ih k' h2⟩
      cases hu : startsMention (c :: cs.take k')
      · rfl
      · rw [show c :: cs.take k' = (c :: cs).take (k' + 1) from
          (List.take_succ_cons).symm] at hu
        rw [startsMention_take hu] at h1
        exact h1

theorem stripUrls_fix {l : List Char} (h : goodU l = true) :
    stripUrls l = l := by
  induction l with
  | nil => rfl
  | cons c cs ih =>
    obtain ⟨h1, h2⟩ := goodU_cons_iff.mp h
    rw [stripUrls_cons, if_neg (by simp [h1]), ih h2]

theorem stripMentions_fix {l : List Char} (h : goodM l = true) :
    stripMentions l = l := by
  induction l with
  | nil => rfl
  | cons c cs ih =>
    obtain ⟨h1, h2⟩ := goodM_cons_iff.mp h
    rw [stripMentions_cons, if_neg (by simp [h1]), ih h2]

theorem dropWhile_isSpc_eq_self {l : List Char} (h : headNotSpc l = true) :
    l.dropWhile isSpc = l := by
  cases l with
  | nil => rfl
  | cons c cs =>
    simp only [headNotSpc, Bool.not_eq_true'] at h
    exact List.dropWhile_cons_of_neg (by simp [h])

theorem collapseWs_fix {l : List Char} (h : tidy l = true) :
    collapseWs l = l := by
  induction l with
  | nil => rfl
  | cons c cs ih =>
    simp only [tidy, Bool.and_eq_true, Bool.or_eq_true, Bool.not_eq_true',
      beq_iff_eq] at h
    obtain ⟨h1, h2⟩ := h
    by_cases hs : isSpc c
    · rcases h1 with h1 | ⟨rfl, hns⟩
      · rw [h1] at hs
        exact absurd hs (by simp)
      · rw [collapseWs_cons, if_pos hs, dropWhile_isSpc_eq_self hns, ih h2]
    · rw [collapseWs_cons, if_neg hs, ih h2]

end SentimentAnalyzer

namespace SentimentAnalyzer

theorem dropWhile_shape (p : Char → Bool) (l : List Char) :
    l.dropWhile p = [] ∨ ∃ c cs, l.dropWhile p = c :: cs ∧ p c = false := by
  induction l with
  | nil => exact Or.inl rfl
  | cons c cs ih =>
    by_cases hp : p c
    · rw [List.dropWhile_cons_of_pos hp]
      exact ih
    · rw [List.dropWhile_cons_of_neg hp]
      exact Or.inr ⟨c, cs, rfl, by simpa using hp⟩

theorem stripUrls_match_shape {l : List Char} (h : startsUrl l = true) :
    stripUrls l = [] ∨ ∃ d r, stripUrls l = d :: r ∧ isSpc d = true := by
  cases l with
  | nil => simp [startsUrl, nonspaceAt] at h
  | cons c cs =>
    rw [stripUrls_cons, if_pos h]
    rcases dropWhile_shape (fun a => !isSpc a) cs with hd | ⟨d, r, hd, hdp⟩
    · rw [hd]
      exact Or.inl rfl
    · have hds : isSpc d = true := by simpa using hdp
      rw [hd, stripUrls_cons, if_neg (by simp [startsUrl_spc hds])]
      exact Or.inr ⟨d, stripUrls r, rfl, hds⟩

theorem headNotWord_dropWhile (l : List Char) :
    headNotWord (l.dropWhile isWordChar) = true := by
  rcases dropWhile_shape isWordChar l with h | ⟨c, cs, h, hc⟩
  · rw [h]
    rfl
  · rw [h]
    simp [headNotWord, hc]

theorem headNotSpc_dropWhile (l : List Char) :
    headNotSpc (l.dropWhile isSpc) = true := by
  rcases dropWhile_shape isSpc l with h | ⟨c, cs, h, hc⟩
  · rw [h]
    rfl
  · rw [h]
    simp [headNotSpc, hc]

theorem headNotWord_stripMentions_aux :
    ∀ n (l : List Char), l.length ≤ n → headNotWord l = true →
      headNotWord (stripMentions l) = true := by
  intro n
  induction n with
  | zero =>
    intro l hl _
    have : l = [] := List.length_eq_zero.mp (Nat.le_zero.mp hl)
    subst this
    rfl
  | succ n ih =>
    intro l hl hw
    cases l with
    | nil => rfl
    | cons c cs =>
      by_cases hm : startsMention (c :: cs) = true
      · rw [stripMentions_cons, if_pos hm]
        refine ih _ ?_ (headNotWord_dropWhile cs)
        have h1 : cs.length ≤ n := by
          simp only [List.length_cons] at hl
          omega
        exact Nat.le_trans (length_dropWhile_le _ cs) h1
      · rw [stripMentions_cons, if_neg hm]
        exact hw

theorem stripMentions_match_shape {l : List Char}
    (h : startsMention l = true) :
    headNotWord (stripMentions l) = true := by
  cases l with
  | nil => simp [startsMention] at h
  | cons c cs =>
    rw [stripMentions_cons, if_pos h]
    exact headNotWord_stripMentions_aux _ _ le_rfl (headNotWord_dropWhile cs)

theorem isPrefixOf_elim :
    ∀ {p l : List Char}, p.isPrefixOf l = true → ∃ t, p ++ t = l := by
  intro p
  induction p with
  | nil => exact fun h => ⟨_, rfl⟩
  | cons a p' ih =>
    intro l h
    cases l with
    | nil => simp [List.isPrefixOf] at h
    | cons b bs =>
      simp only [List.isPrefixOf, Bool.and_eq_true, beq_iff_eq] at h
      obtain ⟨t, ht⟩ := ih h.2
      exact ⟨t, by rw [List.cons_append, ht, h.1]⟩

theorem isPrefixOf_stripUrls :
    ∀ (l p : List Char), (∀ a ∈ p, isSpc a = false) →
      p.isPrefixOf (stripUrls l) = true → p.isPrefixOf l = true := by
  intro l
  induction l with
  | nil =>
    intro p hp hpre
    cases p with
    | nil => simp [List.isPrefixOf]
    | cons a p' => simp [stripUrls_nil, List.isPrefixOf] at hpre
  | cons c cs ih =>
    intro p hp hpre
    cases p with
    | nil => simp [List.isPrefixOf]
    | cons a p' =>
      by_cases hm : startsUrl (c :: cs) = true
      · exfalso
        rcases stripUrls_match_shape hm with hsh | ⟨d, r, hsh, hd⟩
        · rw [hsh] at hpre
          simp [List.isPrefixOf] at hpre
        · rw [hsh] at hpre
          simp only [List.isPrefixOf, Bool.and_eq_true, beq_iff_eq] at hpre
          have ha := hp a (List.mem_cons_self _ _)
          rw [hpre.1, hd] at ha
          exact absurd ha (by simp)
      · rw [stripUrls_cons, if_neg hm] at hpre
        simp only [List.isPrefixOf, Bool.and_eq_true, beq_iff_eq] at hpre ⊢
        refine ⟨hpre.1, ?_⟩
        exact ih p' (fun a ha => hp a (List.mem_cons_of_mem _ ha)) hpre.2

theorem isPrefixOf_stripMentions :
    ∀ (l pw : List Char) (d : Char), (∀ a ∈ pw, isWordChar a = true) →
      (pw ++ [d]).isPrefixOf (stripMentions l) = true →
      (pw ++ [d]).isPrefixOf l = true ∨ (pw ++ ['@']).isPrefixOf l = true := by
  intro l
  induction l with
  | nil =>
    intro pw d hp hpre
    cases pw with
    | nil => simp [stripMentions_nil, List.isPrefixOf] at hpre
    | cons a pw' => simp [stripMentions_nil, List.isPrefixOf] at hpre
  | cons c cs ih =>
    intro pw d hp hpre
    by_cases hm : startsMention (c :: cs) = true
    · have hword := stripMentions_match_shape hm
      cases pw with
      | nil =>
        right
        obtain ⟨rfl, _⟩ := startsMention_elim hm
        simp [List.isPrefixOf]
      | cons a pw' =>
        exfalso
        cases hsm : stripMentions (c :: cs) with
        | nil =>
          rw [hsm] at hpre
          simp [List.isPrefixOf] at hpre
        | cons e es =>
          rw [hsm] at hpre hword
          simp only [List.cons_append, List.isPrefixOf, Bool.and_eq_true,
            beq_iff_eq] at hpre
          have ha := hp a (List.mem_cons_self _ _)
          rw [hpre.1] at ha
          simp only [headNotWord, Bool.not_eq_true'] at hword
          rw [hword] at ha
          exact absurd ha (by simp)
    · rw [stripMentions_cons, if_neg hm] at hpre
      cases pw with
      | nil =>
        left
        simp only [List.nil_append, List.isPrefixOf, Bool.and_eq_true,
          beq_iff_eq] at hpre ⊢
        exact ⟨hpre.1, trivial⟩
      | cons a pw' =>
        simp only [List.cons_append, List.isPrefixOf, Bool.and_eq_true,
          beq_iff_eq] at hpre
        rcases ih pw' d (fun x hx => hp x (List.mem_cons_of_mem _ hx))
            hpre.2 with h | h
        · left
          simp only [List.cons_append, List.isPrefixOf, Bool.and_eq_true,
            beq_iff_eq]
          exact ⟨hpre.1, h⟩
        · right
          simp only [List.cons_append, List.isPrefixOf, Bool.and_eq_true,
            beq_iff_eq]
          exact ⟨hpre.1, h⟩

theorem isPrefixOf_collapseWs :
    ∀ (l p : List Char), (∀ a ∈ p, isSpc a = false) →
      p.isPrefixOf (collapseWs l) = true → p.isPrefixOf l = true := by
  intro l
  induction l with
  | nil =>
    intro p hp hpre
    cases p with
    | nil => simp [List.isPrefixOf]
    | cons a p' => simp [collapseWs_nil, List.isPrefixOf] at hpre
  | cons c cs ih =>
    intro p hp hpre
    cases p with
    | nil => simp [List.isPrefixOf]
    | cons a p' =>
      by_cases hs : isSpc c
      · exfalso
        rw [collapseWs_cons, if_pos hs] at hpre
        simp only [List.isPrefixOf, Bool.and_eq_true, beq_iff_eq] at hpre
        have ha := hp a (List.mem_cons_self _ _)
        rw [hpre.1] at ha
        simp [isSpc] at ha
      · rw [collapseWs_cons, if_neg hs] at hpre
        simp only [List.isPrefixOf, Bool.and_eq_true, beq_iff_eq] at hpre ⊢
        exact ⟨hpre.1, ih p' (fun x hx => hp x (List.mem_cons_of_mem _ hx))
          hpre.2⟩

end SentimentAnalyzer

namespace SentimentAnalyzer

theorem isSpc_elim {c : Char} (h : isSpc c = true) :
    c = ' ' ∨ c = '\t' ∨ c = '\n' ∨ c = '\r' ∨ c = '\x0b' ∨ c = '\x0c' := by
  have h2 := h
  simp only [isSpc, Bool.or_eq_true, beq_iff_eq] at h2
  tauto

theorem isWordChar_not_spc {c : Char} (h : isWordChar c = true) :
    isSpc c = false := by
  cases hs : isSpc c
  · rfl
  · exfalso
    rcases isSpc_elim hs with rfl | rfl | rfl | rfl | rfl | rfl <;>
      simp [isWordChar, Char.isAlphanum, Char.isAlpha, Char.isDigit,
        Char.isUpper, Char.isLower] at h

theorem headNotWord_stripMentions {l : List Char}
    (h : headNotWord l = true) : headNotWord (stripMentions l) = true :=
  headNotWord_stripMentions_aux l.length l le_rfl h

theorem goodU_stripUrls_aux :
    ∀ n (l : List Char), l.length ≤ n → goodU (stripUrls l) = true := by
  intro n
  induction n with
  | zero =>
    intro l hl
    have : l = [] := List.length_eq_zero.mp (Nat.le_zero.mp hl)
    subst this
    rfl
  | succ n ih =>
    intro l hl
    cases l with
    | nil => rfl
    | cons c cs =>
      have hcs : cs.length ≤ n := by
        simp only [List.length_cons] at hl
        omega
      by_cases hm : startsUrl (c :: cs) = true
      · rw [stripUrls_cons, if_pos hm]
        exact ih _ (Nat.le_trans (length_dropWhile_le _ cs) hcs)
      · rw [stripUrls_cons, if_neg hm]
        refine goodU_cons_iff.mpr ⟨?_, ih cs hcs⟩
        cases hU : startsUrl (c :: stripUrls cs)
        · rfl
        · exfalso
          rcases startsUrl_cons_elim hU with ⟨rfl, d, r, hz, hd⟩ |
            ⟨rfl, d, r, hz, hd⟩
          · have hall : ∀ a ∈ ['t', 't', 'p', d], isSpc a = false := by
              intro a ha
              simp only [List.mem_cons, List.not_mem_nil, or_false] at ha
              rcases ha with rfl | rfl | rfl | rfl
              · simp [isSpc]
              · simp [isSpc]
              · simp [isSpc]
              · exact hd
            have hpre : (['t', 't', 'p', d] : List Char).isPrefixOf
                (stripUrls cs) = true := by
              rw [hz]
              simp [List.isPrefixOf]
            have htr := isPrefixOf_stripUrls cs ['t', 't', 'p', d] hall hpre
            rcases isPrefixOf_elim htr with ⟨t, ht⟩
            rw [← ht] at hm
            simp only [List.cons_append, List.nil_append] at hm
            exact hm (startsUrl_intro_http hd)
          · have hall : ∀ a ∈ ['w', 'w', d], isSpc a = false := by
              intro a ha
              simp only [List.mem_cons, List.not_mem_nil, or_false] at ha
              rcases ha with rfl | rfl | rfl
              · simp [isSpc]
              · simp [isSpc]
              · exact hd
            have hpre : (['w', 'w', d] : List Char).isPrefixOf
                (stripUrls cs) = true := by
              rw [hz]
              simp [List.isPrefixOf]
            have htr := isPrefixOf_stripUrls cs ['w', 'w', d] hall hpre
            rcases isPrefixOf_elim htr with ⟨t, ht⟩
            rw [← ht] at hm
            simp only [List.cons_append, List.nil_append] at hm
            exact hm (startsUrl_intro_www hd)

theorem goodU_stripUrls (l : List Char) : goodU (stripUrls l) = true :=
  goodU_stripUrls_aux l.length l le_rfl

theorem goodM_stripMentions_aux :
    ∀ n (l : List Char), l.length ≤ n → goodM (stripMentions l) = true := by
  intro n
  induction n with
  | zero =>
    intro l hl
    have : l = [] := List.length_eq_zero.mp (Nat.le_zero.mp hl)
    subst this
    rfl
  | succ n ih =>
    intro l hl
    cases l with
    | nil => rfl
    | cons c cs =>
      have hcs : cs.length ≤ n := by
        simp only [List.length_cons] at hl
        omega
      by_cases hm : startsMention (c :: cs) = true
      · rw [stripMentions_cons, if_pos hm]
        exact ih _ (Nat.le_trans (length_dropWhile_le _ cs) hcs)
      · rw [stripMentions_cons, if_neg hm]
        refine goodM_cons_iff.mpr ⟨?_, ih cs hcs⟩
        cases hU : startsMention (c :: stripMentions cs)
        · rfl
        · exfalso
          obtain ⟨rfl, d, r, hz, hd⟩ := startsMention_elim hU
          cases cs with
          | nil => simp [stripMentions_nil] at hz
          | cons e es =>
            have he : isWordChar e = false := by
              cases hw : isWordChar e
              · rfl
              · exact absurd (startsMention_intro hw) hm
            have hnw : headNotWord (stripMentions (e :: es)) = true :=
              headNotWord_stripMentions (by simp [headNotWord, he])
            rw [hz] at hnw
            simp only [headNotWord, Bool.not_eq_true'] at hnw
            rw [hnw] at hd
            exact absurd hd (by simp)

theorem goodM_stripMentions (l : List Char) :
    goodM (stripMentions l) = true :=
  goodM_stripMentions_aux l.length l le_rfl

theorem goodU_stripMentions_aux :
    ∀ n (l : List Char), l.length ≤ n → goodU l = true →
      goodU (stripMentions l) = true := by
  intro n
  induction n with
  | zero =>
    intro l hl _
    have : l = [] := List.length_eq_zero.mp (Nat.le_zero.mp hl)
    subst this
    rfl
  | succ n ih =>
    intro l hl hg
    cases l with
    | nil => rfl
    | cons c cs =>
      have hcs : cs.length ≤ n := by
        simp only [List.length_cons] at hl
        omega
      obtain ⟨hg1, hg2⟩ := goodU_cons_iff.mp hg
      by_cases hm : startsMention (c :: cs) = true
      · rw [stripMentions_cons, if_pos hm]
        exact ih _ (Nat.le_trans (length_dropWhile_le _ cs) hcs)
          (goodU_dropWhile _ hg2)
      · rw [stripMentions_cons, if_neg hm]
        refine goodU_cons_iff.mpr ⟨?_, ih cs hcs hg2⟩
        cases hU : startsUrl (c :: stripMentions cs)
        · rfl
        · exfalso
          rcases startsUrl_cons_elim hU with ⟨rfl, d, r, hz, hd⟩ |
            ⟨rfl, d, r, hz, hd⟩
          · have hall : ∀ a ∈ ['t', 't', 'p'], isWordChar a = true := by
              intro a ha
              simp only [List.mem_cons, List.not_mem_nil, or_false] at ha
              rcases ha with rfl | rfl | rfl <;> decide
            have hpre : ((['t', 't', 'p'] : List Char) ++ [d]).isPrefixOf
                (stripMentions cs) = true := by
              rw [hz]
              simp [List.isPrefixOf]
            rcases isPrefixOf_stripMentions cs ['t', 't', 'p'] d hall hpre
              with htr | htr
            · rcases isPrefixOf_elim htr with ⟨t, ht⟩
              rw [← ht] at hg1
              simp only [List.cons_append, List.nil_append] at hg1
              rw [startsUrl_intro_http hd] at hg1
              exact absurd hg1 (by simp)
            · rcases isPrefixOf_elim htr with ⟨t, ht⟩
              rw [← ht] at hg1
              simp only [List.cons_append, List.nil_append] at hg1
              rw [startsUrl_intro_http (d := '@') (by decide)] at hg1
              exact absurd hg1 (by simp)
          · have hall : ∀ a ∈ ['w', 'w'], isWordChar a = true := by
              intro a ha
              simp only [List.mem_cons, List.not_mem_nil, or_false] at ha
              rcases ha with rfl | rfl <;> decide
            have hpre : ((['w', 'w'] : List Char) ++ [d]).isPrefixOf
                (stripMentions cs) = true := by
              rw [hz]
              simp [List.isPrefixOf]
            rcases isPrefixOf_stripMentions cs ['w', 'w'] d hall hpre
              with htr | htr
            · rcases isPrefixOf_elim htr with ⟨t, ht⟩
              rw [← ht] at hg1
              simp only [List.cons_append, List.nil_append] at hg1
              rw [startsUrl_intro_www hd] at hg1
              exact absurd hg1 (by simp)
            · rcases isPrefixOf_elim htr with ⟨t, ht⟩
              rw [← ht] at hg1
              simp only [List.cons_append, List.nil_append] at hg1
              rw [startsUrl_intro_www (d := '@') (by decide)] at hg1
              exact absurd hg1 (by simp)

theorem goodU_stripMentions {l : List Char} (h : goodU l = true) :
    goodU (stripMentions l) = true :=
  goodU_stripMentions_aux l.length l le_rfl h

end SentimentAnalyzer

namespace SentimentAnalyzer

theorem goodU_collapseWs_aux :
    ∀ n (l : List Char), l.length ≤ n → goodU l = true →
      goodU (collapseWs l) = true := by
  intro n
  induction n with
  | zero =>
    intro l hl _
    have : l = [] := List.length_eq_zero.mp (Nat.le_zero.mp hl)
    subst this
    rfl
  | succ n ih =>
    intro l hl hg
    cases l with
    | nil => rfl
    | cons c cs =>
      have hcs : cs.length ≤ n := by
        simp only [List.length_cons] at hl
        omega
      obtain ⟨hg1, hg2⟩ := goodU_cons_iff.mp hg
      by_cases hs : isSpc c
      · rw [collapseWs_cons, if_pos hs]
        refine goodU_cons_iff.mpr ⟨startsUrl_spc (by decide), ?_⟩
        exact ih _ (Nat.le_trans (length_dropWhile_le _ cs) hcs)
          (goodU_dropWhile _ hg2)
      · rw [collapseWs_cons, if_neg hs]
        refine goodU_cons_iff.mpr ⟨?_, ih cs hcs hg2⟩
        cases hU : startsUrl (c :: collapseWs cs)
        · rfl
        · exfalso
          rcases startsUrl_cons_elim hU with ⟨rfl, d, r, hz, hd⟩ |
            ⟨rfl, d, r, hz, hd⟩
          · have hall : ∀ a ∈ ['t', 't', 'p', d], isSpc a = false := by
              intro a ha
              simp only [List.mem_cons, List.not_mem_nil, or_false] at ha
              rcases ha with rfl | rfl | rfl | rfl
              · simp [isSpc]
              · simp [isSpc]
              · simp [isSpc]
              · exact hd
            have hpre : (['t', 't', 'p', d] : List Char).isPrefixOf
                (collapseWs cs) = true := by
              rw [hz]
              simp [List.isPrefixOf]
            have htr := isPrefixOf_collapseWs cs ['t', 't', 'p', d] hall hpre
            rcases isPrefixOf_elim htr with ⟨t, ht⟩
            rw [← ht] at hg1
            simp only [List.cons_append, List.nil_append] at hg1
            rw [startsUrl_intro_http hd] at hg1
            exact absurd hg1 (by simp)
          · have hall : ∀ a ∈ ['w', 'w', d], isSpc a = false := by
              intro a ha
              simp only [List.mem_cons, List.not_mem_nil, or_false] at ha
              rcases ha with rfl | rfl | rfl
              · simp [isSpc]
              · simp [isSpc]
              · exact hd
            have hpre : (['w', 'w', d] : List Char).isPrefixOf
                (collapseWs cs) = true := by
              rw [hz]
              simp [List.isPrefixOf]
            have htr := isPrefixOf_collapseWs cs ['w', 'w', d] hall hpre
            rcases isPrefixOf_elim htr with ⟨t, ht⟩
            rw [← ht] at hg1
            simp only [List.cons_append, List.nil_append] at hg1
            rw [startsUrl_intro_www hd] at hg1
            exact absurd hg1 (by simp)

theorem goodU_collapseWs {l : List Char} (h : goodU l = true) :
    goodU (collapseWs l) = true :=
  goodU_collapseWs_aux l.length l le_rfl h

theorem goodM_collapseWs_aux :
    ∀ n (l : List Char), l.length ≤ n → goodM l = true →
      goodM (collapseWs l) = true := by
  intro n
  induction n with
  | zero =>
    intro l hl _
    have : l = [] := List.length_eq_zero.mp (Nat.le_zero.mp hl)
    subst this
    rfl
  | succ n ih =>
    intro l hl hg
    cases l with
    | nil => rfl
    | cons c cs =>
      have hcs : cs.length ≤ n := by
        simp only [List.length_cons] at hl
        omega
      obtain ⟨hg1, hg2⟩ := goodM_cons_iff.mp hg
      by_cases hs : isSpc c
      · rw [collapseWs_cons, if_pos hs]
        refine goodM_cons_iff.mpr ⟨?_, ?_⟩
        · cases hU : startsMention (' ' :: collapseWs (cs.dropWhile isSpc))
          · rfl
          · obtain ⟨hc, _⟩ := startsMention_elim hU
            exact absurd hc (by decide)
        · exact ih _ (Nat.le_trans (length_dropWhile_le _ cs) hcs)
            (goodM_dropWhile _ hg2)
      · rw [collapseWs_cons, if_neg hs]
        refine goodM_cons_iff.mpr ⟨?_, ih cs hcs hg2⟩
        cases hU : startsMention (c :: collapseWs cs)
        · rfl
        · exfalso
          obtain ⟨rfl, d, r, hz, hd⟩ := startsMention_elim hU
          have hall : ∀ a ∈ [d], isSpc a = false := by
            intro a ha
            simp only [List.mem_cons, List.not_mem_nil, or_false] at ha
            rw [ha]
            exact isWordChar_not_spc hd
          have hpre : ([d] : List Char).isPrefixOf (collapseWs cs) = true := by
            rw [hz]
            simp [List.isPrefixOf]
          have htr := isPrefixOf_collapseWs cs [d] hall hpre
          rcases isPrefixOf_elim htr with ⟨t, ht⟩
          rw [← ht] at hg1
          simp only [List.cons_append, List.nil_append] at hg1
          rw [startsMention_intro hd] at hg1
          exact absurd hg1 (by simp)

theorem goodM_collapseWs {l : List Char} (h : goodM l = true) :
    goodM (collapseWs l) = true :=
  goodM_collapseWs_aux l.length l le_rfl h

theorem collapseWs_headNotSpc {l : List Char} (h : headNotSpc l = true) :
    headNotSpc (collapseWs l) = true := by
  cases l with
  | nil => rfl
  | cons c cs =>
    simp only [headNotSpc, Bool.not_eq_true'] at h
    rw [collapseWs_cons, if_neg (by simp [h])]
    simp [headNotSpc, h]

theorem tidy_cons_iff {c : Char} {cs : List Char} :
    tidy (c :: cs) = true ↔
      (isSpc c = false ∨ (c = ' ' ∧ headNotSpc cs = true)) ∧ tidy cs = true := by
  simp [tidy, Bool.not_eq_true']

theorem tidy_collapseWs_aux :
    ∀ n (l : List Char), l.length ≤ n → tidy (collapseWs l) = true := by
  intro n
  induction n with
  | zero =>
    intro l hl
    have : l = [] := List.length_eq_zero.mp (Nat.le_zero.mp hl)
    subst this
    rfl
  | succ n ih =>
    intro l hl
    cases l with
    | nil => rfl
    | cons c cs =>
      have hcs : cs.length ≤ n := by
        simp only [List.length_cons] at hl
        omega
      by_cases hs : isSpc c
      · rw [collapseWs_cons, if_pos hs]
        refine tidy_cons_iff.mpr ⟨Or.inr ⟨rfl, ?_⟩, ?_⟩
        · exact collapseWs_headNotSpc (headNotSpc_dropWhile cs)
        · exact ih _ (Nat.le_trans (length_dropWhile_le _ cs) hcs)
      · rw [collapseWs_cons, if_neg hs]
        refine tidy_cons_iff.mpr ⟨Or.inl (by simpa using hs), ih cs hcs⟩

theorem tidy_collapseWs (l : List Char) : tidy (collapseWs l) = true :=
  tidy_collapseWs_aux l.length l le_rfl

theorem tidy_dropWhile (p : Char → Bool) {l : List Char}
    (h : tidy l = true) : tidy (l.dropWhile p) = true := by
  induction l with
  | nil => simpa using h
  | cons c cs ih =>
    rw [List.dropWhile_cons]
    by_cases hp : p c
    · rw [if_pos hp]
      exact ih (tidy_cons_iff.mp h).2
    · rw [if_neg hp]
      exact h

theorem headNotSpc_take {l : List Char} {k : ℕ}
    (h : headNotSpc l = true) : headNotSpc (l.take k) = true := by
  cases l with
  | nil => simpa using h
  | cons c cs =>
    cases k with
    | zero => rfl
    | succ k' =>
      rw [List.take_succ_cons]
      exact h

theorem tidy_take {l : List Char} (k : ℕ) (h : tidy l = true) :
    tidy (l.take k) = true := by
  induction l generalizing k with
  | nil => simpa using h
  | cons c cs ih =>
    cases k with
    | zero => rfl
    | succ k' =>
      rw [List.take_succ_cons]
      obtain ⟨h1, h2⟩ := tidy_cons_iff.mp h
      refine tidy_cons_iff.mpr ⟨?_, ih k' h2⟩
      rcases h1 with h1 | ⟨rfl, hns⟩
      · exact Or.inl h1
      · exact Or.inr ⟨rfl, headNotSpc_take hns⟩

theorem dropWhile_exists_drop (p : Char → Bool) (l : List Char) :
    ∃ k, l.dropWhile p = l.drop k := by
  induction l with
  | nil => exact ⟨0, rfl⟩
  | cons c cs ih =>
    by_cases hp : p c
    · obtain ⟨k, hk⟩ := ih
      refine ⟨k + 1, ?_⟩
      rw [List.dropWhile_cons_of_pos hp, List.drop_succ_cons, hk]
    · exact ⟨0, List.dropWhile_cons_of_neg hp⟩

theorem backTrim_eq_take (l : List Char) : ∃ k, backTrim l = l.take k := by
  obtain ⟨j, hj⟩ := dropWhile_exists_drop isSpc l.reverse
  refine ⟨l.length - j, ?_⟩
  unfold backTrim
  rw [hj, List.reverse_drop]
  simp

theorem pyStrip_eq_backTrim (l : List Char) :
    pyStrip l = backTrim (l.dropWhile isSpc) := rfl

theorem goodU_pyStrip {l : List Char} (h : goodU l = true) :
    goodU (pyStrip l) = true := by
  rw [pyStrip_eq_backTrim]
  obtain ⟨k, hk⟩ := backTrim_eq_take (l.dropWhile isSpc)
  rw [hk]
  exact goodU_take k (goodU_dropWhile _ h)

theorem goodM_pyStrip {l : List Char} (h : goodM l = true) :
    goodM (pyStrip l) = true := by
  rw [pyStrip_eq_backTrim]
  obtain ⟨k, hk⟩ := backTrim_eq_take (l.dropWhile isSpc)
  rw [hk]
  exact goodM_take k (goodM_dropWhile _ h)

theorem tidy_pyStrip {l : List Char} (h : tidy l = true) :
    tidy (pyStrip l) = true := by
  rw [pyStrip_eq_backTrim]
  obtain ⟨k, hk⟩ := backTrim_eq_take (l.dropWhile isSpc)
  rw [hk]
  exact tidy_take k (tidy_dropWhile _ h)

theorem headNotSpc_pyStrip (l : List Char) :
    headNotSpc (pyStrip l) = true := by
  rw [pyStrip_eq_backTrim]
  obtain ⟨k, hk⟩ := backTrim_eq_take (l.dropWhile isSpc)
  rw [hk]
  exact headNotSpc_take (headNotSpc_dropWhile l)

theorem pyStrip_reverse (l : List Char) :
    (pyStrip l).reverse = (l.dropWhile isSpc).reverse.dropWhile isSpc := by
  unfold pyStrip
  rw [List.reverse_reverse]

theorem headNotSpc_pyStrip_reverse (l : List Char) :
    headNotSpc (pyStrip l).reverse = true := by
  rw [pyStrip_reverse]
  exact headNotSpc_dropWhile _

theorem pyStrip_fix {l : List Char} (h1 : headNotSpc l = true)
    (h2 : headNotSpc l.reverse = true) : pyStrip l = l := by
  unfold pyStrip
  rw [dropWhile_isSpc_eq_self h1, dropWhile_isSpc_eq_self h2,
    List.reverse_reverse]

end SentimentAnalyzer

namespace SentimentAnalyzer

theorem mem_dropWhile {p : Char → Bool} {l : List Char} {a : Char}
    (h : a ∈ l.dropWhile p) : a ∈ l := by
  obtain ⟨k, hk⟩ := dropWhile_exists_drop p l
  rw [hk] at h
  exact List.mem_of_mem_drop h

theorem mem_stripUrls_aux :
    ∀ n (l : List Char) (a : Char), l.length ≤ n → a ∈ stripUrls l →
      a ∈ l := by
  intro n
  induction n with
  | zero =>
    intro l a hl ha
    have : l = [] := List.length_eq_zero.mp (Nat.le_zero.mp hl)
    subst this
    rw [stripUrls_nil] at ha
    simp at ha
  | succ n ih =>
    intro l a hl ha
    cases l with
    | nil =>
      rw [stripUrls_nil] at ha
      simp at ha
    | cons c cs =>
      have hcs : cs.length ≤ n := by
        simp only [List.length_cons] at hl
        omega
      by_cases hm : startsUrl (c :: cs) = true
      · rw [stripUrls_cons, if_pos hm] at ha
        exact List.mem_cons_of_mem _
          (mem_dropWhile (ih _ a (Nat.le_trans (length_dropWhile_le _ cs) hcs) ha))
      · rw [stripUrls_cons, if_neg hm] at ha
        rcases List.mem_cons.mp ha with rfl | ha
        · exact List.mem_cons_self _ _
        · exact List.mem_cons_of_mem _ (ih cs a hcs ha)

theorem mem_stripMentions_aux :
    ∀ n (l : List Char) (a : Char), l.length ≤ n → a ∈ stripMentions l →
      a ∈ l := by
  intro n
  induction n with
  | zero =>
    intro l a hl ha
    have : l = [] := List.length_eq_zero.mp (Nat.le_zero.mp hl)
    subst this
    rw [stripMentions_nil] at ha
    simp at ha
  | succ n ih =>
    intro l a hl ha
    cases l with
    | nil =>
      rw [stripMentions_nil] at ha
      simp at ha
    | cons c cs =>
      have hcs : cs.length ≤ n := by
        simp only [List.length_cons] at hl
        omega
      by_cases hm : startsMention (c :: cs) = true
      · rw [stripMentions_cons, if_pos hm] at ha
        exact List.mem_cons_of_mem _
          (mem_dropWhile (ih _ a (Nat.le_trans (length_dropWhile_le _ cs) hcs) ha))
      · rw [stripMentions_cons, if_neg hm] at ha
        rcases List.mem_cons.mp ha with rfl | ha
        · exact List.mem_cons_self _ _
        · exact List.mem_cons_of_mem _ (ih cs a hcs ha)

theorem mem_collapseWs_aux :
    ∀ n (l : List Char) (a : Char), l.length ≤ n → a ∈ collapseWs l →
      a = ' ' ∨ a ∈ l := by
  intro n
  induction n with
  | zero =>
    intro l a hl ha
    have : l = [] := List.length_eq_zero.mp (Nat.le_zero.mp hl)
    subst this
    rw [collapseWs_nil] at ha
    simp at ha
  | succ n ih =>
    intro l a hl ha
    cases l with
    | nil =>
      rw [collapseWs_nil] at ha
      simp at ha
    | cons c cs =>
      have hcs : cs.length ≤ n := by
        simp only [List.length_cons] at hl
        omega
      by_cases hs : isSpc c
      · rw [collapseWs_cons, if_pos hs] at ha
        rcases List.mem_cons.mp ha with rfl | ha
        · exact Or.inl rfl
        · rcases ih _ a (Nat.le_trans (length_dropWhile_le _ cs) hcs) ha with
            h | h
          · exact Or.inl h
          · exact Or.inr (List.mem_cons_of_mem _ (mem_dropWhile h))
      · rw [collapseWs_cons, if_neg hs] at ha
        rcases List.mem_cons.mp ha with rfl | ha
        · exact Or.inr (List.mem_cons_self _ _)
        · rcases ih cs a hcs ha with h | h
          · exact Or.inl h
          · exact Or.inr (List.mem_cons_of_mem _ h)

theorem mem_pyStrip {l : List Char} {a : Char} (h : a ∈ pyStrip l) :
    a ∈ l := by
  unfold pyStrip at h
  rw [List.mem_reverse] at h
  have h2 := mem_dropWhile h
  rw [List.mem_reverse] at h2
  exact mem_dropWhile h2

theorem lowerStr_fix {l : List Char} (h : ∀ a ∈ l, Char.toLower a = a) :
    lowerStr l = l := by
  unfold lowerStr
  conv_rhs => rw [← List.map_id l]
  exact List.map_congr_left h

theorem preprocess_chars_fixed {l : List Char}
    (h : ∀ a ∈ l, Char.toLower a = a) :
    ∀ a ∈ pyStrip (collapseWs (stripMentions (stripUrls l))),
      Char.toLower a = a := by
  intro a ha
  have h1 := mem_pyStrip ha
  rcases mem_collapseWs_aux _ _ a le_rfl h1 with rfl | h2
  · decide
  · have h3 := mem_stripMentions_aux _ _ a le_rfl h2
    have h4 := mem_stripUrls_aux _ _ a le_rfl h3
    exact h a h4

theorem preprocess_list_fix_of_lower {l : List Char}
    (h : ∀ a ∈ l, Char.toLower a = a) :
    preprocess_list (preprocess_list l) = preprocess_list l := by
  have hlow := preprocess_chars_fixed h
  have h1 : preprocess_list l
      = pyStrip (collapseWs (stripMentions (stripUrls l))) := by
    unfold preprocess_list
    exact lowerStr_fix hlow
  have hU : goodU (pyStrip (collapseWs (stripMentions (stripUrls l)))) = true :=
    goodU_pyStrip (goodU_collapseWs (goodU_stripMentions (goodU_stripUrls l)))
  have hM : goodM (pyStrip (collapseWs (stripMentions (stripUrls l)))) = true :=
    goodM_pyStrip (goodM_collapseWs (goodM_stripMentions (stripUrls l)))
  have hT : tidy (pyStrip (collapseWs (stripMentions (stripUrls l)))) = true :=
    tidy_pyStrip (tidy_collapseWs _)
  have hH := headNotSpc_pyStrip (collapseWs (stripMentions (stripUrls l)))
  have hR := headNotSpc_pyStrip_reverse (collapseWs (stripMentions (stripUrls l)))
  rw [h1]
  unfold preprocess_list
  rw [stripUrls_fix hU, stripMentions_fix hM, collapseWs_fix hT,
    pyStrip_fix hH hR]
  exact lowerStr_fix hlow

/-- C6 counterexample: preprocessing is not idempotent.  The input
"HTTPX" survives the case-sensitive URL stripping, is lower-cased to
"httpx" at the end of the first pass, and the second pass then strips it
as a URL token, yielding the empty string. -/
theorem C6_counterexample :
    preprocess_tweet (preprocess_tweet "HTTPX") ≠ preprocess_tweet "HTTPX" := by
  decide

/-- C6 (amended): preprocessing is idempotent on every input containing
no character changed by lower-casing (in particular on every input
without uppercase letters); the original unrestricted claim fails because
the URL/mention stripping is case-sensitive but runs before the
lower-casing. -/
theorem C6_preprocess_idempotent_lowercase (s : String)
    (h : ∀ c ∈ s.toList, Char.toLower c = c) :
    preprocess_tweet (preprocess_tweet s) = preprocess_tweet s := by
  show String.mk (preprocess_list (preprocess_list s.toList))
    = String.mk (preprocess_list s.toList)
  exact congrArg String.mk (preprocess_list_fix_of_lower h)

/-- C6 witness: idempotence holds at a concrete lowercase input. -/
theorem C6_preprocess_idempotent_lowercase_witness :
    preprocess_tweet (preprocess_tweet "check http://x.com now @bob")
      = preprocess_tweet "check http://x.com now @bob" :=
  C6_preprocess_idempotent_lowercase "check http://x.com now @bob" (by decide)

end SentimentAnalyzer
